import Mathlib

/-!
Verification development for the mcp-reasoner repository.

Shallow embedding of the thought-tree data model, the thought store, and the
strategy layer (A* search, constraint satisfaction, the hybrid arbiter), plus
the reasoner dispatcher and the engine boundary.  JS numbers are modelled as
rationals, JS Map objects as association lists in insertion order, node ids
(uuidv4 in the source) as naturals drawn from a per-strategy counter, and
thrown exceptions as Except values.  JS Math.max over an empty argument list
returns -Infinity; that value is modelled as Option.none.
-/

namespace MCPReasoner

/-- Payload stored under the constraints field of a node (CSP data:
domains, assignments and the optional satisfaction flag). -/
structure ConstraintsPayload where
  domains : List (String × List ℚ)
  assignments : List (String × ℚ)
  satisfied : Option Bool
deriving DecidableEq

/-- ThoughtNode from types.ts (the MCTS-only simulationResults field is
omitted: no strategy modelled here reads or writes it). -/
structure ThoughtNode where
  id : Nat
  thought : String
  depth : Int
  score : ℚ
  children : List Nat
  parentId : Option Nat
  isComplete : Bool
  evaluations : List (String × ℚ)
  heuristicValue : Option ℚ
  constraints : Option ConstraintsPayload
deriving DecidableEq

/-- ReasoningRequest from types.ts. -/
structure ReasoningRequest where
  thought : String
  thoughtNumber : Int
  totalThoughts : Int
  nextThoughtNeeded : Bool
  parentId : Option Nat
  strategyType : Option String
  branchingFactor : Option Int
  evaluations : Option (List (String × ℚ))
  evaluationMetrics : Option (List String)
  constraints : Option ConstraintsPayload
deriving DecidableEq

/-- Map.set on an association list: overwrite the entry with the given key if
one exists, otherwise append a new entry (insertion order preserved). -/
def setAssoc {κ α : Type} [BEq κ] (l : List (κ × α)) (k : κ) (v : α) : List (κ × α) :=
  if l.any (fun p => p.1 == k) then
    l.map (fun p => if p.1 == k then (k, v) else p)
  else
    l ++ [(k, v)]

/-- Modelled from the spec: state.ts (StateManager) is not under src/.
The store is the node table in insertion order (§4.1); saveNode is
put(node): insert, or overwrite the entry with the same id. -/
def putNode (s : List ThoughtNode) (n : ThoughtNode) : List ThoughtNode :=
  if s.any (fun m => m.id == n.id) then
    s.map (fun m => if m.id == n.id then n else m)
  else
    s ++ [n]

/-- Modelled from the spec: state.ts is not under src/.  get(id) is point
lookup by node id (§4.1). -/
def getNode? (s : List ThoughtNode) (i : Nat) : Option ThoughtNode :=
  s.find? (fun m => m.id == i)

/-- Modelled from the spec: state.ts is not under src/.  getPath walks
parentId links upward and reverses (§4.1); the fuel argument is the
defensive bound on the walk length.  A missing ancestor terminates the
walk (evicted ids must act as NotFound rather than crash, §4.1). -/
def getPathAux (s : List ThoughtNode) : Nat → Nat → List ThoughtNode
  | 0, _ => []
  | fuel + 1, i =>
    match getNode? s i with
    | none => []
    | some n =>
      match n.parentId with
      | none => [n]
      | some p => getPathAux s fuel p ++ [n]

/-- Modelled from the spec: root-to-node path reconstruction, with a
defensive bound exceeding the store size (§4.1). -/
def getPath (s : List ThoughtNode) (i : Nat) : List ThoughtNode :=
  getPathAux s (s.length + 1) i

/-- ReasoningStrategy enum from types.ts. -/
inductive ReasoningStrategy where
  | beamSearch
  | mcts
  | aStar
  | constraintSatisfaction
  | hybrid
deriving DecidableEq

/-- Runtime string value of each enum member ("beam_search", "mcts",
"a_star", "csp", "hybrid"). -/
def ReasoningStrategy.value : ReasoningStrategy → String
  | .beamSearch => "beam_search"
  | .mcts => "mcts"
  | .aStar => "a_star"
  | .constraintSatisfaction => "csp"
  | .hybrid => "hybrid"

/-- Parse a runtime strategy identifier back to the enum member. -/
def strategyOfString? (s : String) : Option ReasoningStrategy :=
  if s == "beam_search" then some .beamSearch
  else if s == "mcts" then some .mcts
  else if s == "a_star" then some .aStar
  else if s == "csp" then some .constraintSatisfaction
  else if s == "hybrid" then some .hybrid
  else none

/-- Keys of the HybridStrategy strategies map: the four delegate strategies
registered in its constructor (hybrid itself is not a key). -/
def hybridSubStrategies : List ReasoningStrategy :=
  [.beamSearch, .mcts, .aStar, .constraintSatisfaction]

/-- Switch thresholds set in the HybridStrategy constructor. -/
structure StrategySwitchThresholds where
  uncertaintyThreshold : ℚ
  goalClarityThreshold : ℚ
  constraintDensityThreshold : ℚ

/-- The concrete threshold record of HybridStrategy. -/
def strategySwitchThresholds : StrategySwitchThresholds :=
  { uncertaintyThreshold := 3/10
    goalClarityThreshold := 7/10
    constraintDensityThreshold := 5 }

/-- HybridStrategy private switchStrategy: adopt the requested strategy only
when it is a key of the strategies map, otherwise keep the active one. -/
def switchStrategy (active : ReasoningStrategy) (s : ReasoningStrategy) : ReasoningStrategy :=
  if s ∈ hybridSubStrategies then s else active

/-- HybridStrategy private evaluateStrategySwitch, as a function of the three
computed signals, the raw strategyType string of the request (none or the
empty string are falsy and skip the explicit-override branch, and a string
that is not a key of the strategies map is silently ignored), and the
currently active delegate. -/
def evaluateStrategySwitch (uncertainty goalClarity constraintDensity : ℚ)
    (strategyType : Option String) (active : ReasoningStrategy) : ReasoningStrategy :=
  let afterAuto :=
    if constraintDensity ≥ strategySwitchThresholds.constraintDensityThreshold then
      switchStrategy active .constraintSatisfaction
    else if goalClarity ≥ strategySwitchThresholds.goalClarityThreshold then
      switchStrategy active .aStar
    else if uncertainty ≥ strategySwitchThresholds.uncertaintyThreshold then
      switchStrategy active .mcts
    else
      switchStrategy active .beamSearch
  match strategyType with
  | none => afterAuto
  | some s =>
    if s == "" then afterAuto
    else
      match strategyOfString? s with
      | some t => switchStrategy afterAuto t
      | none => afterAuto

/-- HybridStrategy private calculateUncertainty over the node list returned
by getAllNodes (insertion order, oldest first). -/
def calculateUncertainty (nodes : List ThoughtNode) : ℚ :=
  if nodes.length < 2 then 1/2
  else
    let recentNodes := nodes.drop (nodes.length - 10)
    let scores := recentNodes.map (fun n => n.score)
    let mean := scores.sum / (scores.length : ℚ)
    let variance := (scores.map (fun b => (b - mean) ^ 2)).sum / (scores.length : ℚ)
    min 1 (variance / 5)

/-- The last n elements of a list (the JS slice with a negative start). -/
def lastN {α : Type} (n : Nat) (l : List α) : List α :=
  l.drop (l.length - n)

/-- Population variance of a list of rationals, written from the wording of
the spec for comparison with calculateUncertainty. -/
def listVariance (l : List ℚ) : ℚ :=
  (l.map (fun b => (b - l.sum / (l.length : ℚ)) ^ 2)).sum / (l.length : ℚ)

/-- State of AStarSearchStrategy: the shared store, the uuid supply
(modelled as a counter yielding fresh ids), and the open and closed sets
(Map from node id to node, in insertion order). -/
structure AStarState where
  store : List ThoughtNode
  nextId : Nat
  openSet : List (Nat × ThoughtNode)
  closedSet : List (Nat × ThoughtNode)
deriving DecidableEq

/-- A fresh AStarSearchStrategy over an empty store. -/
def initAStarState : AStarState :=
  { store := [], nextId := 0, openSet := [], closedSet := [] }

/-- Response fields produced by AStarSearchStrategy.processThought.
bestScore is Math.max over the open-set scores; none models the
-Infinity that JS Math.max returns on an empty argument list. -/
structure AStarResponse where
  nodeId : Nat
  thought : String
  score : ℚ
  depth : Int
  isComplete : Bool
  nextThoughtNeeded : Bool
  openSetSize : Nat
  closedSetSize : Nat
  estimatedDistanceToGoal : ℚ
  totalCost : ℚ
  bestScore : Option ℚ
deriving DecidableEq

/-- JS Math.max over a spread list of rationals; none is the -Infinity
result on an empty list. -/
def jsMax (l : List ℚ) : Option ℚ :=
  l.foldl (fun acc a =>
    match acc with
    | none => some a
    | some b => some (max b a)) none

/-- AStarSearchStrategy private calculateHeuristic: remaining steps scaled
by a quality factor derived from the score (totalThoughts of 0 is falsy in
JS, defaulting to 10). -/
def calculateHeuristic (node : ThoughtNode) (request : ReasoningRequest) : ℚ :=
  let totalSteps : Int := if request.totalThoughts == 0 then 10 else request.totalThoughts
  let remainingSteps : ℚ := (totalSteps : ℚ) - (node.depth : ℚ)
  let qualityFactor : ℚ := 1 - node.score / 10
  remainingSteps * qualityFactor

/-- Path cost g(n): sum of scores along the root path of the node with the
given id, reconstructed from the store. -/
def gScore (store : List ThoughtNode) (i : Nat) : ℚ :=
  ((getPath store i).map (fun n => n.score)).sum

/-- Cost estimate f(n) = g(n) + h(n) of a node, h read from the stored
heuristicValue (0 when absent, as the JS code ORs it with 0). -/
def fScore (store : List ThoughtNode) (n : ThoughtNode) : ℚ :=
  gScore store n.id + n.heuristicValue.getD 0

/-- One accumulator step of the open-set scan of processAStarStep: keep the
entry of strictly lowest f seen so far (first entry wins ties, lowestF
starting at Infinity so the first finite f always replaces it). -/
def selStep (store : List ThoughtNode) (acc : Option (ThoughtNode × ℚ))
    (p : Nat × ThoughtNode) : Option (ThoughtNode × ℚ) :=
  let f := gScore store p.2.id + p.2.heuristicValue.getD 0
  match acc with
  | none => some (p.2, f)
  | some (q, lowestF) => if f < lowestF then some (p.2, f) else some (q, lowestF)

/-- The open-set member chosen by processAStarStep: the first entry
attaining the minimum f over the scan, none when the open set is empty. -/
def selectLowestF (store : List ThoughtNode) (entries : List (Nat × ThoughtNode)) :
    Option ThoughtNode :=
  (entries.foldl (selStep store) none).map (fun r => r.1)

/-- AStarSearchStrategy private processAStarStep: move the minimum-f open
node to the closed set; a complete selected node ends the step (the
simplified source generates no neighbors in either case). -/
def processAStarStep (st : AStarState) : AStarState :=
  match selectLowestF st.store st.openSet with
  | none => st
  | some currentNode =>
    { st with
      openSet := st.openSet.eraseP (fun q => q.1 == currentNode.id)
      closedSet := setAssoc st.closedSet currentNode.id currentNode }

/-- The ThoughtNode built by AStarSearchStrategy.processThought: created
with score 0 and heuristicValue 0, then scored by evaluateThought (which
lives in the shared base class, base.ts, not under src/, and is taken as a
parameter), then given the computed heuristic. -/
def aStarMakeNode (evaluateThought : ThoughtNode → Option ThoughtNode → ℚ)
    (nodeId : Nat) (parentNode : Option ThoughtNode) (request : ReasoningRequest) :
    ThoughtNode :=
  let node0 : ThoughtNode :=
    { id := nodeId
      thought := request.thought
      depth := request.thoughtNumber - 1
      score := 0
      children := []
      parentId := request.parentId
      isComplete := !request.nextThoughtNeeded
      evaluations := request.evaluations.getD []
      heuristicValue := some 0
      constraints := none }
  let node1 := { node0 with score := evaluateThought node0 parentNode }
  { node1 with heuristicValue := some (calculateHeuristic node1 request) }

/-- AStarSearchStrategy.processThought: create and score the node, compute
its heuristic, save it, append its id to the children of an existing
parent, insert it into the open set, run one A* step, then build the
response. -/
def aStarProcessThought (evaluateThought : ThoughtNode → Option ThoughtNode → ℚ)
    (st : AStarState) (request : ReasoningRequest) : AStarState × AStarResponse :=
  let nodeId := st.nextId
  let parentNode := request.parentId.bind (getNode? st.store)
  let node := aStarMakeNode evaluateThought nodeId parentNode request
  let store1 := putNode st.store node
  let store2 :=
    match parentNode with
    | some parent => putNode store1 { parent with children := parent.children ++ [nodeId] }
    | none => store1
  let st1 : AStarState :=
    { store := store2
      nextId := st.nextId + 1
      openSet := setAssoc st.openSet nodeId node
      closedSet := st.closedSet }
  let st2 := processAStarStep st1
  let currentPath := getPath st2.store nodeId
  let pathScore := (currentPath.map (fun n => n.score)).sum
  (st2,
   { nodeId := nodeId
     thought := node.thought
     score := node.score
     depth := node.depth
     isComplete := node.isComplete
     nextThoughtNeeded := request.nextThoughtNeeded
     openSetSize := st2.openSet.length
     closedSetSize := st2.closedSet.length
     estimatedDistanceToGoal := node.heuristicValue.getD 0
     totalCost := pathScore + node.heuristicValue.getD 0
     bestScore := jsMax (st2.openSet.map (fun p => p.2.score)) })

/-- Fold of aStarProcessThought over a sequence of requests. -/
def aStarProcessMany (evaluateThought : ThoughtNode → Option ThoughtNode → ℚ) :
    AStarState → List ReasoningRequest → AStarState
  | st, [] => st
  | st, r :: rs => aStarProcessMany evaluateThought (aStarProcessThought evaluateThought st r).1 rs

/-- A registered constraint predicate over (value, full assignment snapshot). -/
abbrev ConstraintFn := ℚ → List (String × ℚ) → Bool

/-- State of ConstraintSatisfactionStrategy: shared store, uuid counter, and
the three CSP maps (domains, constraints, assignments). -/
structure CSPState where
  store : List ThoughtNode
  nextId : Nat
  domains : List (String × List ℚ)
  constraints : List (String × List ConstraintFn)
  assignments : List (String × ℚ)

/-- A fresh ConstraintSatisfactionStrategy over an empty store. -/
def initCSPState : CSPState :=
  { store := [], nextId := 0, domains := [], constraints := [], assignments := [] }

/-- Response fields produced by ConstraintSatisfactionStrategy.processThought. -/
structure CSPResponse where
  nodeId : Nat
  thought : String
  score : ℚ
  depth : Int
  isComplete : Bool
  nextThoughtNeeded : Bool
  constraintsSatisfied : Bool
  unassignedVariables : List String
  currentAssignments : List (String × ℚ)
  bestScore : ℚ
deriving DecidableEq

/-- ConstraintSatisfactionStrategy private checkConstraints: every predicate
registered for a currently assigned variable must accept the value together
with the full assignment snapshot. -/
def checkConstraints (constraints : List (String × List ConstraintFn))
    (assignments : List (String × ℚ)) : Bool :=
  constraints.all (fun c =>
    match assignments.lookup c.1 with
    | none => true
    | some value => c.2.all (fun f => f value assignments))

/-- ConstraintSatisfactionStrategy private getUnassignedVariables: domain
variables without a current assignment, in domain insertion order. -/
def getUnassignedVariables (domains : List (String × List ℚ))
    (assignments : List (String × ℚ)) : List String :=
  ((domains.map (fun d => d.1)).filter (fun v => !(assignments.any (fun a => a.1 == v))))

/-- ConstraintSatisfactionStrategy.processThought: create and score the node
(scoring lives in base.ts, not under src/, and is a parameter), save it,
append its id to the children of an existing parent, merge the domains and
assignments of the constraints payload into the strategy maps (last write
wins), then check constraints and build the response. -/
def cspProcessThought (evaluateThought : ThoughtNode → Option ThoughtNode → ℚ)
    (st : CSPState) (request : ReasoningRequest) : CSPState × CSPResponse :=
  let nodeId := st.nextId
  let parentNode := request.parentId.bind (getNode? st.store)
  let node0 : ThoughtNode :=
    { id := nodeId
      thought := request.thought
      depth := request.thoughtNumber - 1
      score := 0
      children := []
      parentId := request.parentId
      isComplete := !request.nextThoughtNeeded
      evaluations := request.evaluations.getD []
      heuristicValue := none
      constraints := some (request.constraints.getD ⟨[], [], none⟩) }
  let node := { node0 with score := evaluateThought node0 parentNode }
  let store1 := putNode st.store node
  let store2 :=
    match parentNode with
    | some parent => putNode store1 { parent with children := parent.children ++ [nodeId] }
    | none => store1
  let payload := node.constraints.getD ⟨[], [], none⟩
  let domains1 := payload.domains.foldl (fun d kv => setAssoc d kv.1 kv.2) st.domains
  let assignments1 := payload.assignments.foldl (fun a kv => setAssoc a kv.1 kv.2) st.assignments
  let constraintsSatisfied := checkConstraints st.constraints assignments1
  let st' : CSPState :=
    { store := store2
      nextId := st.nextId + 1
      domains := domains1
      constraints := st.constraints
      assignments := assignments1 }
  (st',
   { nodeId := nodeId
     thought := node.thought
     score := node.score
     depth := node.depth
     isComplete := node.isComplete
     nextThoughtNeeded := request.nextThoughtNeeded
     constraintsSatisfied := constraintsSatisfied
     unassignedVariables := getUnassignedVariables domains1 assignments1
     currentAssignments := assignments1
     bestScore := max node.score ((parentNode.map (fun p => p.score)).getD 0) })

/-- Fold of cspProcessThought over a sequence of requests, collecting the
responses in order. -/
def cspProcessMany (evaluateThought : ThoughtNode → Option ThoughtNode → ℚ) :
    CSPState → List ReasoningRequest → CSPState × List CSPResponse
  | st, [] => (st, [])
  | st, r :: rs =>
    let step := cspProcessThought evaluateThought st r
    let rest := cspProcessMany evaluateThought step.1 rs
    (rest.1, step.2 :: rest.2)

/-- The complete-and-satisfied filter of ConstraintSatisfactionStrategy
getBestPath (node.constraints?.satisfied === true). -/
def satisfyingNodes (store : List ThoughtNode) : List ThoughtNode :=
  store.filter (fun n =>
    n.isComplete && ((n.constraints.map (fun c => c.satisfied)).getD none == some true))

/-- The JS reduce used by getBestPath: first element as the initial value,
keeping the current element only on a strictly greater score (so the first
maximal-score element of the scan wins). -/
def firstMaxByScore : List ThoughtNode → Option ThoughtNode
  | [] => none
  | h :: t => some ((h :: t).foldl (fun best current =>
      if current.score > best.score then current else best) h)

/-- ConstraintSatisfactionStrategy.getBestPath: the path to the best
complete node whose satisfied flag is true, falling back (when no node
passes that filter) to the best node of the whole store regardless of
completeness, and to the empty path on an empty store. -/
def cspGetBestPath (store : List ThoughtNode) : List ThoughtNode :=
  let satisfying := satisfyingNodes store
  if satisfying.isEmpty then
    match firstMaxByScore store with
    | none => []
    | some bestNode => getPath store bestNode.id
  else
    match firstMaxByScore satisfying with
    | none => []
    | some bestNode => getPath store bestNode.id

/-- Metrics record produced by ConstraintSatisfactionStrategy.getMetrics
(the fields contributed by the base class, which lives outside src/, are
omitted; no claim mentions them). -/
structure CSPMetrics where
  variablesCount : Nat
  assignedVariables : Nat
  constraintsSatisfied : Bool
  averageDomainSize : ℚ
deriving DecidableEq

/-- ConstraintSatisfactionStrategy.getMetrics. -/
def cspGetMetrics (st : CSPState) : CSPMetrics :=
  { variablesCount := st.domains.length
    assignedVariables := st.assignments.length
    constraintsSatisfied := checkConstraints st.constraints st.assignments
    averageDomainSize :=
      (st.domains.map (fun d => (d.2.length : ℚ))).sum / (max 1 st.domains.length : ℚ) }

/-- A JS thrown value as seen by the catch clause of the engine boundary:
either an Error object carrying a message, or any other thrown value. -/
inductive Thrown where
  | errorObj (message : String)
  | nonError
deriving DecidableEq

/-- The message the catch clause extracts from a thrown value
(error instanceof Error ? error.message : the fixed fallback text). -/
def thrownMessage : Thrown → String
  | .errorObj m => m
  | .nonError => "Unknown error in reasoning engine"

/-- Response at the engine boundary (EnhancedGameDevResponse in
engine.ts); nodeId is the raw string of the wire format here, and the
error fields are optional as in the source. -/
structure EngineResponse where
  nodeId : String
  thought : String
  score : ℚ
  depth : Int
  isComplete : Bool
  nextThoughtNeeded : Bool
  error : Option Bool
  errorMessage : Option String
deriving DecidableEq

/-- ReasoningEngine.handle: run the whole try block (processing plus any
game-dev enhancement, abstracted as the fallible computation passed in) and
convert any thrown value into the fixed well-formed error response. -/
def engineHandle (process : ReasoningRequest → Except Thrown EngineResponse)
    (request : ReasoningRequest) : EngineResponse :=
  match process request with
  | .ok response => response
  | .error e =>
    { nodeId := ""
      thought := ""
      score := 0
      depth := 0
      isComplete := false
      nextThoughtNeeded := false
      error := some true
      errorMessage := some (thrownMessage e) }

/-- The strategies map built by the Reasoner constructor: runtime key
strings paired with the strategy registered under each, in insertion
order. -/
def reasonerStrategies : List (String × ReasoningStrategy) :=
  [("beam_search", .beamSearch), ("mcts", .mcts), ("a_star", .aStar),
   ("csp", .constraintSatisfaction), ("hybrid", .hybrid)]

/-- The identifiers registered in the Reasoner strategies map. -/
def reasonerStrategyKeys : List String :=
  reasonerStrategies.map (fun p => p.1)

/-- The piece of Reasoner state that setStrategy touches. -/
structure ReasonerState where
  currentStrategy : ReasoningStrategy
deriving DecidableEq

/-- Map.get on the strategies map: the value of the first entry with the
given key. -/
def stratLookup (s : String) : List (String × ReasoningStrategy) → Option ReasoningStrategy
  | [] => none
  | (k, v) :: t => if k == s then some v else stratLookup s t

/-- Reasoner.setStrategy: throw on an identifier missing from the
strategies map, otherwise make the registered instance current. -/
def setStrategy (r : ReasonerState) (strategyType : String) :
    Except String ReasonerState :=
  match stratLookup strategyType reasonerStrategies with
  | none => .error ("Unknown strategy type: " ++ strategyType)
  | some s => .ok { r with currentStrategy := s }

/-- What claim C1 asserts of one processThought call: the response carries
the fresh node id, the parent gained exactly that id at the end of its
children, every other store entry is untouched, and the fresh node itself
has no children. -/
def appendsChildOnce (store store2 : List ThoughtNode) (pid newId : Nat)
    (parent : ThoughtNode) (respNodeId : Nat) : Prop :=
  respNodeId = newId
  ∧ getNode? store2 pid = some { parent with children := parent.children ++ [newId] }
  ∧ (∀ j, j ≠ pid → j ≠ newId → getNode? store2 j = getNode? store j)
  ∧ (∃ nd, getNode? store2 newId = some nd ∧ nd.children = [])

/-- What claim C5 asserts of an A* strategy state: open and closed sets
are key-disjoint, and the ids the strategy has created (all counter values
below nextId) are exactly the ids present in one of the two sets. -/
def openClosedPartition (st : AStarState) : Prop :=
  (∀ p ∈ st.openSet, ∀ q ∈ st.closedSet, p.1 ≠ q.1)
  ∧ ∀ i : Nat, i < st.nextId ↔
      ((∃ p ∈ st.openSet, p.1 = i) ∨ (∃ q ∈ st.closedSet, q.1 = i))

/-- Induction invariant behind openClosedPartition: key bounds by the
counter, keys matching the stored node ids, key uniqueness inside each
set, key disjointness across the sets, and coverage of every created id. -/
def aStarInv (st : AStarState) : Prop :=
  (∀ p ∈ st.openSet, p.1 < st.nextId)
  ∧ (∀ q ∈ st.closedSet, q.1 < st.nextId)
  ∧ (∀ p ∈ st.openSet, p.1 = p.2.id)
  ∧ (∀ q ∈ st.closedSet, q.1 = q.2.id)
  ∧ (st.openSet.map (fun p => p.1)).Nodup
  ∧ (st.closedSet.map (fun q => q.1)).Nodup
  ∧ (∀ p ∈ st.openSet, ∀ q ∈ st.closedSet, p.1 ≠ q.1)
  ∧ ∀ i : Nat, i < st.nextId →
      ((∃ p ∈ st.openSet, p.1 = i) ∨ (∃ q ∈ st.closedSet, q.1 = i))

/-- What claim C9 asserts of a CSP run: the constraints index stays empty,
the internal check passes, every response and the metrics report
constraintsSatisfied. -/
def cspAlwaysSatisfied (st : CSPState) (responses : List CSPResponse) : Prop :=
  st.constraints = []
  ∧ checkConstraints st.constraints st.assignments = true
  ∧ (∀ r ∈ responses, r.constraintsSatisfied = true)
  ∧ (cspGetMetrics st).constraintsSatisfied = true

/-- A concrete request used by witnesses. -/
def sampleRequest : ReasoningRequest :=
  { thought := "design the scoring loop"
    thoughtNumber := 1
    totalThoughts := 3
    nextThoughtNeeded := true
    parentId := none
    strategyType := none
    branchingFactor := none
    evaluations := none
    evaluationMetrics := none
    constraints := none }

/-- A concrete root node used by witnesses. -/
def sampleRoot : ThoughtNode :=
  { id := 0
    thought := "root"
    depth := 0
    score := 4
    children := []
    parentId := none
    isComplete := false
    evaluations := []
    heuristicValue := none
    constraints := none }

/-- Counterexample store member: incomplete, score 5, no satisfied flag. -/
def nodeIncompleteHigh : ThoughtNode :=
  { id := 0
    thought := "half-done idea"
    depth := 0
    score := 5
    children := []
    parentId := none
    isComplete := false
    evaluations := []
    heuristicValue := none
    constraints := none }

/-- Counterexample store member: complete, score 3, satisfied flag false. -/
def nodeCompleteLow : ThoughtNode :=
  { id := 1
    thought := "finished idea"
    depth := 0
    score := 3
    children := []
    parentId := none
    isComplete := true
    evaluations := []
    heuristicValue := none
    constraints := some ⟨[], [], some false⟩ }

/-- Witness store member: complete with the satisfied flag set. -/
def nodeSatisfiedComplete : ThoughtNode :=
  { id := 2
    thought := "validated idea"
    depth := 0
    score := 4
    children := []
    parentId := none
    isComplete := true
    evaluations := []
    heuristicValue := none
    constraints := some ⟨[], [], some true⟩ }

/-- A concrete request carrying a parentId, used by witnesses. -/
def childRequest : ReasoningRequest :=
  { sampleRequest with parentId := some 0 }

/-! Theorems. -/

/-- C6: whenever the computation behind the engine boundary throws, handle
returns the well-formed error response with empty node id, isComplete
false, the error flag set and the human-readable message extracted from
the thrown value; no exception reaches the caller (engineHandle is a total
function of the fallible computation). -/
theorem engineHandle_error_shape
    (process : ReasoningRequest → Except Thrown EngineResponse)
    (request : ReasoningRequest) (e : Thrown)
    (h : process request = .error e) :
    engineHandle process request =
      { nodeId := ""
        thought := ""
        score := 0
        depth := 0
        isComplete := false
        nextThoughtNeeded := false
        error := some true
        errorMessage := some (thrownMessage e) } := by
  simp [engineHandle, h]

/-- Witness for engineHandle_error_shape at a concrete throwing
computation. -/
theorem engineHandle_error_shape_witness :
    (fun (_ : ReasoningRequest) => (Except.error Thrown.nonError : Except Thrown EngineResponse))
        sampleRequest = Except.error Thrown.nonError
    ∧ engineHandle (fun _ => Except.error Thrown.nonError) sampleRequest =
      { nodeId := ""
        thought := ""
        score := 0
        depth := 0
        isComplete := false
        nextThoughtNeeded := false
        error := some true
        errorMessage := some (thrownMessage Thrown.nonError) } :=
  ⟨rfl, engineHandle_error_shape (fun _ => Except.error Thrown.nonError) sampleRequest
    Thrown.nonError rfl⟩

theorem stratLookup_eq_none_iff (s : String) (l : List (String × ReasoningStrategy)) :
    stratLookup s l = none ↔ s ∉ l.map (fun p => p.1) := by
  induction l with
  | nil => simp [stratLookup]
  | cons h t ih =>
    obtain ⟨k, v⟩ := h
    by_cases hk : k = s
    · subst hk
      simp [stratLookup]
    · have hbeq : (k == s) = false := beq_eq_false_iff_ne.mpr hk
      simp [stratLookup, hbeq, ih, Ne.symm hk]

/-- C7: setStrategy succeeds exactly on the five registered identifiers,
fails with the UnknownStrategy error otherwise, and on success the current
strategy becomes the instance registered under the identifier. -/
theorem setStrategy_spec (r : ReasonerState) (s : String) :
    ((∃ r2, setStrategy r s = .ok r2) ↔ s ∈ reasonerStrategyKeys)
    ∧ (s ∉ reasonerStrategyKeys →
        setStrategy r s = .error ("Unknown strategy type: " ++ s))
    ∧ ∀ t, stratLookup s reasonerStrategies = some t →
        setStrategy r s = .ok { currentStrategy := t } := by
  have hkeys : reasonerStrategyKeys = reasonerStrategies.map (fun p => p.1) := rfl
  cases hl : stratLookup s reasonerStrategies with
  | none =>
    have hniff := (stratLookup_eq_none_iff s reasonerStrategies).mp hl
    refine ⟨?_, ?_, ?_⟩
    · constructor
      · rintro ⟨r2, hr2⟩
        rw [setStrategy, hl] at hr2
        exact absurd hr2 (by simp)
      · intro hmem
        rw [hkeys] at hmem
        exact absurd hmem hniff
    · intro _
      rw [setStrategy, hl]
    · intro t ht
      exact absurd ht (by simp)
  | some t0 =>
    refine ⟨?_, ?_, ?_⟩
    · constructor
      · intro _
        rw [hkeys]
        by_contra hnot
        rw [(stratLookup_eq_none_iff s reasonerStrategies).mpr hnot] at hl
        exact absurd hl (by simp)
      · intro _
        exact ⟨{ currentStrategy := t0 }, by rw [setStrategy, hl]⟩
    · intro hnot
      rw [hkeys] at hnot
      rw [(stratLookup_eq_none_iff s reasonerStrategies).mpr hnot] at hl
      exact absurd hl (by simp)
    · intro t ht
      injection ht with h2
      subst h2
      rw [setStrategy, hl]

/-- Witness for setStrategy_spec at the csp identifier. -/
theorem setStrategy_spec_witness :
    stratLookup "csp" reasonerStrategies = some ReasoningStrategy.constraintSatisfaction
    ∧ setStrategy ⟨ReasoningStrategy.beamSearch⟩ "csp" =
        .ok ⟨ReasoningStrategy.constraintSatisfaction⟩ :=
  ⟨by decide, (setStrategy_spec ⟨ReasoningStrategy.beamSearch⟩ "csp").2.2
    ReasoningStrategy.constraintSatisfaction (by decide)⟩

/-- C8: the uncertainty signal is 0.5 below two stored nodes, otherwise
the variance of the scores of the most recent 10 nodes divided by the
fixed scale 5 and capped at 1, and the result always lies in [0, 1]. -/
theorem calculateUncertainty_spec (nodes : List ThoughtNode) :
    (nodes.length < 2 → calculateUncertainty nodes = 1/2)
    ∧ (2 ≤ nodes.length →
        calculateUncertainty nodes
          = min 1 (listVariance (lastN 10 (nodes.map (fun n => n.score))) / 5))
    ∧ 0 ≤ calculateUncertainty nodes ∧ calculateUncertainty nodes ≤ 1 := by
  by_cases hlen : nodes.length < 2
  · refine ⟨fun _ => by rw [calculateUncertainty, if_pos hlen], fun h2 => absurd h2 (by omega), ?_, ?_⟩
    · rw [calculateUncertainty, if_pos hlen]; norm_num
    · rw [calculateUncertainty, if_pos hlen]; norm_num
  · have heq : calculateUncertainty nodes
        = min 1 (listVariance (lastN 10 (nodes.map (fun n => n.score))) / 5) := by
      rw [calculateUncertainty, if_neg hlen]
      rw [listVariance, lastN]
      simp [List.map_drop]
    have hvar : 0 ≤ listVariance (lastN 10 (nodes.map (fun n => n.score))) := by
      rw [listVariance]
      apply div_nonneg
      · apply List.sum_nonneg
        intro x hx
        obtain ⟨b, _, hb⟩ := List.mem_map.mp hx
        rw [← hb]
        positivity
      · positivity
    refine ⟨fun h => absurd h hlen, fun _ => heq, ?_, ?_⟩
    · rw [heq]
      exact le_min (by norm_num) (by positivity)
    · rw [heq]
      exact min_le_left 1 _

/-- Witness for calculateUncertainty_spec on small concrete stores. -/
theorem calculateUncertainty_spec_witness :
    ([] : List ThoughtNode).length < 2 ∧ calculateUncertainty [] = 1/2
    ∧ 2 ≤ [nodeIncompleteHigh, nodeCompleteLow].length
    ∧ calculateUncertainty [nodeIncompleteHigh, nodeCompleteLow]
        = min 1 (listVariance
            (lastN 10 ([nodeIncompleteHigh, nodeCompleteLow].map (fun n => n.score))) / 5) :=
  ⟨by decide, (calculateUncertainty_spec []).1 (by decide), by decide,
    (calculateUncertainty_spec [nodeIncompleteHigh, nodeCompleteLow]).2.1 (by decide)⟩

/-- C2 counterexample: the claim says an explicit strategyType always
overrides the computed choice, but the hybrid identifier (a legal value of
the request schema, parsed by strategyOfString?) is not a key of the
strategies map of HybridStrategy, so the switch is silently ignored and
the computed choice stands. -/
theorem evaluateStrategySwitch_counterexample :
    strategyOfString? "hybrid" = some ReasoningStrategy.hybrid
    ∧ evaluateStrategySwitch (1/10) (2/10) 0 (some "hybrid") ReasoningStrategy.beamSearch
        ≠ ReasoningStrategy.hybrid
    ∧ evaluateStrategySwitch (1/10) (2/10) 0 (some "hybrid") ReasoningStrategy.beamSearch
        = evaluateStrategySwitch (1/10) (2/10) 0 none ReasoningStrategy.beamSearch := by
  have h1 : evaluateStrategySwitch (1/10) (2/10) 0 (some "hybrid") ReasoningStrategy.beamSearch
      = ReasoningStrategy.beamSearch := by
    rw [evaluateStrategySwitch]
    norm_num [strategySwitchThresholds, switchStrategy, hybridSubStrategies, strategyOfString?]
    decide
  have h2 : evaluateStrategySwitch (1/10) (2/10) 0 none ReasoningStrategy.beamSearch
      = ReasoningStrategy.beamSearch := by
    rw [evaluateStrategySwitch]
    norm_num [strategySwitchThresholds, switchStrategy, hybridSubStrategies]
  refine ⟨by decide, ?_, ?_⟩
  · rw [h1]
    decide
  · rw [h1, h2]

/-- C2 amended: the four automatic rules fire in fixed priority order
(CSP, then A*, then MCTS, then BeamSearch) on the computed signals; an
explicit strategyType overrides the automatic switch exactly when it names
one of the four delegate strategies registered in the hybrid, while any
other value (hybrid, the empty string, or an unknown identifier) leaves
the computed choice in place; and on constraintDensity 6, goalClarity 0.2,
uncertainty 0.1 with no explicit strategyType, the active strategy is
CSP. -/
theorem evaluateStrategySwitch_spec (u g c : ℚ) (a : ReasoningStrategy) :
    (strategySwitchThresholds.constraintDensityThreshold ≤ c →
      evaluateStrategySwitch u g c none a = ReasoningStrategy.constraintSatisfaction)
    ∧ (c < strategySwitchThresholds.constraintDensityThreshold →
        strategySwitchThresholds.goalClarityThreshold ≤ g →
        evaluateStrategySwitch u g c none a = ReasoningStrategy.aStar)
    ∧ (c < strategySwitchThresholds.constraintDensityThreshold →
        g < strategySwitchThresholds.goalClarityThreshold →
        strategySwitchThresholds.uncertaintyThreshold ≤ u →
        evaluateStrategySwitch u g c none a = ReasoningStrategy.mcts)
    ∧ (c < strategySwitchThresholds.constraintDensityThreshold →
        g < strategySwitchThresholds.goalClarityThreshold →
        u < strategySwitchThresholds.uncertaintyThreshold →
        evaluateStrategySwitch u g c none a = ReasoningStrategy.beamSearch)
    ∧ (∀ s t, strategyOfString? s = some t → t ∈ hybridSubStrategies →
        evaluateStrategySwitch u g c (some s) a = t)
    ∧ (∀ s, (∀ t, strategyOfString? s = some t → t ∉ hybridSubStrategies) →
        evaluateStrategySwitch u g c (some s) a = evaluateStrategySwitch u g c none a)
    ∧ evaluateStrategySwitch (1/10) (2/10) 6 none a = ReasoningStrategy.constraintSatisfaction := by
  refine ⟨?_, ?_, ?_, ?_, ?_, ?_, ?_⟩
  · intro h1
    rw [evaluateStrategySwitch]
    simp only [ge_iff_le, h1, if_true]
    rfl
  · intro h1 h2
    rw [evaluateStrategySwitch]
    simp only [ge_iff_le, not_le.mpr h1, if_false, h2, if_true]
    rfl
  · intro h1 h2 h3
    rw [evaluateStrategySwitch]
    simp only [ge_iff_le, not_le.mpr h1, if_false, not_le.mpr h2, h3, if_true]
    rfl
  · intro h1 h2 h3
    rw [evaluateStrategySwitch]
    simp only [ge_iff_le, not_le.mpr h1, if_false, not_le.mpr h2, not_le.mpr h3]
    rfl
  · intro s t hs ht
    have hne : s ≠ "" := by
      intro hcon
      rw [hcon] at hs
      have hn : strategyOfString? "" = none := by decide
      rw [hn] at hs
      exact Option.noConfusion hs
    have hne2 : (s == "") = false := beq_eq_false_iff_ne.mpr hne
    rw [evaluateStrategySwitch]
    simp only [hne2, Bool.false_eq_true, if_false, hs]
    rw [switchStrategy, if_pos ht]
  · intro s hs
    by_cases hne : s = ""
    · subst hne
      rw [evaluateStrategySwitch, evaluateStrategySwitch]
      simp
    · have hne2 : (s == "") = false := beq_eq_false_iff_ne.mpr hne
      rw [evaluateStrategySwitch, evaluateStrategySwitch]
      cases hval : strategyOfString? s with
      | none => simp [hne2, hval]
      | some t =>
        have hnotin := hs t hval
        simp only [hne2, Bool.false_eq_true, if_false, hval]
        rw [switchStrategy, if_neg hnotin]
  · rw [evaluateStrategySwitch]
    norm_num [strategySwitchThresholds]
    rfl

/-- Witness for evaluateStrategySwitch_spec at the concrete signal values
of the claim. -/
theorem evaluateStrategySwitch_spec_witness :
    strategySwitchThresholds.constraintDensityThreshold ≤ (6 : ℚ)
    ∧ evaluateStrategySwitch (1/10) (2/10) 6 none ReasoningStrategy.beamSearch
        = ReasoningStrategy.constraintSatisfaction :=
  ⟨by norm_num [strategySwitchThresholds],
    (evaluateStrategySwitch_spec (1/10) (2/10) 6 ReasoningStrategy.beamSearch).1
      (by norm_num [strategySwitchThresholds])⟩

theorem foldlBest_mem (l : List ThoughtNode) (a : ThoughtNode) :
    l.foldl (fun best current => if current.score > best.score then current else best) a
      ∈ a :: l := by
  induction l generalizing a with
  | nil => simp
  | cons h t ih =>
    simp only [List.foldl_cons]
    have := ih (if h.score > a.score then h else a)
    rcases List.mem_cons.mp this with heq | hmem
    · rw [heq]
      by_cases hc : h.score > a.score
      · simp [hc]
      · simp [hc]
    · simp [hmem]

theorem foldlBest_acc_le (l : List ThoughtNode) (a : ThoughtNode) :
    a.score ≤ (l.foldl (fun best current =>
      if current.score > best.score then current else best) a).score := by
  induction l generalizing a with
  | nil => simp
  | cons h t ih =>
    simp only [List.foldl_cons]
    refine le_trans ?_ (ih (if h.score > a.score then h else a))
    by_cases hc : h.score > a.score
    · simp only [hc, if_true]
      exact le_of_lt hc
    · simp [hc]

theorem foldlBest_mem_le (l : List ThoughtNode) (a : ThoughtNode) :
    ∀ x ∈ l, x.score ≤ (l.foldl (fun best current =>
      if current.score > best.score then current else best) a).score := by
  induction l generalizing a with
  | nil => simp
  | cons h t ih =>
    intro x hx
    simp only [List.foldl_cons]
    rcases List.mem_cons.mp hx with heq | hmem
    · subst heq
      refine le_trans ?_ (foldlBest_acc_le t (if x.score > a.score then x else a))
      by_cases hc : x.score > a.score
      · simp [hc]
      · simp only [hc, if_false]
        exact le_of_not_lt hc
    · exact ih (if h.score > a.score then h else a) x hmem

theorem firstMaxByScore_spec (l : List ThoughtNode) (b : ThoughtNode)
    (h : firstMaxByScore l = some b) : b ∈ l ∧ ∀ x ∈ l, x.score ≤ b.score := by
  cases l with
  | nil => exact absurd h (by simp [firstMaxByScore])
  | cons hd t =>
    rw [firstMaxByScore] at h
    injection h with hb
    subst hb
    constructor
    · rcases List.mem_cons.mp (foldlBest_mem (hd :: t) hd) with heq | hmem
      · rw [heq]
        exact List.mem_cons_self hd t
      · exact hmem
    · exact foldlBest_mem_le (hd :: t) hd

/-- C3 counterexample: a store holding an incomplete score-5 node and a
complete score-3 node (no satisfied flag anywhere) makes getBestPath fall
back to the best node of the whole store, returning the path to the
incomplete node rather than to the highest-scoring complete node the claim
demands. -/
theorem cspGetBestPath_counterexample :
    satisfyingNodes [nodeIncompleteHigh, nodeCompleteLow] = []
    ∧ nodeCompleteLow.isComplete = true
    ∧ nodeIncompleteHigh.isComplete = false
    ∧ cspGetBestPath [nodeIncompleteHigh, nodeCompleteLow] = [nodeIncompleteHigh] := by
  decide

theorem getPath_ne_nil (store : List ThoughtNode) (i : Nat)
    (h : ∃ x ∈ store, x.id = i) : getPath store i ≠ [] := by
  obtain ⟨x, hx, hxi⟩ := h
  have hfind : (getNode? store i).isSome := by
    rw [getNode?, List.find?_isSome]
    exact ⟨x, hx, by simpa using hxi⟩
  obtain ⟨n, hn⟩ := Option.isSome_iff_exists.mp hfind
  show getPathAux store (store.length + 1) i ≠ []
  rw [getPathAux, hn]
  cases hp : n.parentId with
  | none => simp [hp]
  | some p => simp [hp]

/-- C3 amended: getBestPath returns the path to the highest-scoring node
among complete nodes whose constraints are marked satisfied; when no such
node exists it falls back to the highest-scoring node of the whole store
regardless of completeness; the empty path is returned exactly for an
empty store. -/
theorem cspGetBestPath_spec (store : List ThoughtNode) :
    (store = [] → cspGetBestPath store = [])
    ∧ (satisfyingNodes store ≠ [] →
        ∃ b, b ∈ satisfyingNodes store
          ∧ (∀ n ∈ satisfyingNodes store, n.score ≤ b.score)
          ∧ cspGetBestPath store = getPath store b.id)
    ∧ (satisfyingNodes store = [] → store ≠ [] →
        ∃ b, b ∈ store ∧ (∀ n ∈ store, n.score ≤ b.score)
          ∧ cspGetBestPath store = getPath store b.id)
    ∧ (store ≠ [] → cspGetBestPath store ≠ []) := by
  refine ⟨?_, ?_, ?_, ?_⟩
  · intro h
    subst h
    decide
  · intro hne
    cases hsat : firstMaxByScore (satisfyingNodes store) with
    | none =>
      cases hl : satisfyingNodes store with
      | nil => exact absurd hl hne
      | cons hd t =>
        rw [hl, firstMaxByScore] at hsat
        exact Option.noConfusion hsat
    | some b =>
      obtain ⟨hmem, hle⟩ := firstMaxByScore_spec _ b hsat
      refine ⟨b, hmem, hle, ?_⟩
      rw [cspGetBestPath]
      have hempty : (satisfyingNodes store).isEmpty = false := by
        cases hl : satisfyingNodes store with
        | nil => exact absurd hl hne
        | cons hd t => simp
      simp only [hempty, Bool.false_eq_true, if_false, hsat]
  · intro hsat hne
    cases hmax : firstMaxByScore store with
    | none =>
      cases hl : store with
      | nil => exact absurd hl hne
      | cons hd t =>
        rw [hl, firstMaxByScore] at hmax
        exact Option.noConfusion hmax
    | some b =>
      obtain ⟨hmem, hle⟩ := firstMaxByScore_spec _ b hmax
      refine ⟨b, hmem, hle, ?_⟩
      rw [cspGetBestPath]
      have hempty : (satisfyingNodes store).isEmpty = true := by
        rw [hsat]
        rfl
      simp only [hempty, if_true, hmax]
  · intro hne
    rw [cspGetBestPath]
    by_cases hsat : (satisfyingNodes store).isEmpty = true
    · simp only [hsat, if_true]
      cases hmax : firstMaxByScore store with
      | none =>
        cases hl : store with
        | nil => exact absurd hl hne
        | cons hd t =>
          rw [hl, firstMaxByScore] at hmax
          exact Option.noConfusion hmax
      | some b =>
        obtain ⟨hmem, _⟩ := firstMaxByScore_spec store b hmax
        exact getPath_ne_nil store b.id ⟨b, hmem, rfl⟩
    · simp only [hsat, Bool.false_eq_true, if_false]
      cases hmax : firstMaxByScore (satisfyingNodes store) with
      | none =>
        cases hl : satisfyingNodes store with
        | nil => exact absurd (by rw [hl]; rfl) hsat
        | cons hd t =>
          rw [hl, firstMaxByScore] at hmax
          exact Option.noConfusion hmax
      | some b =>
        obtain ⟨hmem, _⟩ := firstMaxByScore_spec (satisfyingNodes store) b hmax
        have hbs : b ∈ store := (List.mem_filter.mp hmem).1
        exact getPath_ne_nil store b.id ⟨b, hbs, rfl⟩

/-- Witness for cspGetBestPath_spec on a store with one satisfied complete
node. -/
theorem cspGetBestPath_spec_witness :
    satisfyingNodes [nodeSatisfiedComplete] ≠ []
    ∧ ∃ b, b ∈ satisfyingNodes [nodeSatisfiedComplete]
        ∧ (∀ n ∈ satisfyingNodes [nodeSatisfiedComplete], n.score ≤ b.score)
        ∧ cspGetBestPath [nodeSatisfiedComplete] = getPath [nodeSatisfiedComplete] b.id :=
  ⟨by decide, (cspGetBestPath_spec [nodeSatisfiedComplete]).2.1 (by decide)⟩

theorem cspProcessThought_constraints_eq
    (evaluateThought : ThoughtNode → Option ThoughtNode → ℚ)
    (st : CSPState) (request : ReasoningRequest) :
    (cspProcessThought evaluateThought st request).1.constraints = st.constraints := rfl

theorem cspProcessThought_satisfied
    (evaluateThought : ThoughtNode → Option ThoughtNode → ℚ)
    (st : CSPState) (request : ReasoningRequest) (h : st.constraints = []) :
    (cspProcessThought evaluateThought st request).2.constraintsSatisfied = true := by
  show checkConstraints st.constraints _ = true
  rw [h]
  rfl

theorem cspProcessMany_satisfied_aux
    (evaluateThought : ThoughtNode → Option ThoughtNode → ℚ)
    (requests : List ReasoningRequest) :
    ∀ st : CSPState, st.constraints = [] →
      (cspProcessMany evaluateThought st requests).1.constraints = []
      ∧ ∀ r ∈ (cspProcessMany evaluateThought st requests).2,
          r.constraintsSatisfied = true := by
  induction requests with
  | nil =>
    intro st h
    exact ⟨h, by simp [cspProcessMany]⟩
  | cons q qs ih =>
    intro st h
    have hstep : (cspProcessThought evaluateThought st q).1.constraints = [] := by
      rw [cspProcessThought_constraints_eq]
      exact h
    obtain ⟨hc, hresp⟩ := ih (cspProcessThought evaluateThought st q).1 hstep
    refine ⟨hc, ?_⟩
    intro r hr
    rw [cspProcessMany] at hr
    rcases List.mem_cons.mp hr with heq | hmem
    · rw [heq]
      exact cspProcessThought_satisfied evaluateThought st q h
    · exact hresp r hmem

/-- C9: starting from a fresh ConstraintSatisfactionStrategy, no sequence
of processThought calls ever inserts into the constraints index, the
internal constraint check therefore returns true, and constraintsSatisfied
is true in every response and in the getMetrics result. -/
theorem cspRun_alwaysSatisfied
    (evaluateThought : ThoughtNode → Option ThoughtNode → ℚ)
    (requests : List ReasoningRequest) :
    cspAlwaysSatisfied (cspProcessMany evaluateThought initCSPState requests).1
      (cspProcessMany evaluateThought initCSPState requests).2 := by
  obtain ⟨hc, hresp⟩ := cspProcessMany_satisfied_aux evaluateThought requests initCSPState rfl
  refine ⟨hc, ?_, hresp, ?_⟩
  · rw [hc]
    rfl
  · show checkConstraints _ _ = true
    rw [hc]
    rfl

/-- Witness for cspRun_alwaysSatisfied at a concrete run. -/
theorem cspRun_alwaysSatisfied_witness :
    cspAlwaysSatisfied
      (cspProcessMany (fun _ _ => 0) initCSPState [sampleRequest]).1
      (cspProcessMany (fun _ _ => 0) initCSPState [sampleRequest]).2 :=
  cspRun_alwaysSatisfied (fun _ _ => 0) [sampleRequest]

theorem find?_map_replace (n : ThoughtNode) (s : List ThoughtNode)
    (h : s.any (fun m => m.id == n.id) = true) :
    (s.map (fun m => if m.id == n.id then n else m)).find? (fun m => m.id == n.id)
      = some n := by
  induction s with
  | nil => simp at h
  | cons m t ih =>
    by_cases hm : (m.id == n.id) = true
    · simp only [List.map_cons, hm, if_true]
      rw [List.find?_cons_of_pos _ (by simp)]
    · have hm2 : (m.id == n.id) = false := by simpa using hm
      simp only [List.any_cons, hm2, Bool.false_or] at h
      simp only [List.map_cons, hm2, Bool.false_eq_true, if_false]
      rw [List.find?_cons_of_neg _ (by simp [hm2])]
      exact ih h

theorem find?_map_replace_ne (n : ThoughtNode) (j : Nat) (hj : j ≠ n.id)
    (s : List ThoughtNode) :
    (s.map (fun m => if m.id == n.id then n else m)).find? (fun m => m.id == j)
      = s.find? (fun m => m.id == j) := by
  induction s with
  | nil => simp
  | cons m t ih =>
    by_cases hm : (m.id == n.id) = true
    · have hmid : m.id = n.id := by simpa using hm
      simp only [List.map_cons, hm, if_true]
      rw [List.find?_cons_of_neg _ (by simp [Ne.symm hj]),
        List.find?_cons_of_neg _ (by simp [hmid, Ne.symm hj])]
      exact ih
    · have hm2 : (m.id == n.id) = false := by simpa using hm
      simp only [List.map_cons, hm2, Bool.false_eq_true, if_false]
      by_cases hmj : (m.id == j) = true
      · simp only [List.find?_cons, hmj]
      · rw [List.find?_cons_of_neg _ (by simp [hmj]),
          List.find?_cons_of_neg _ (by simp [hmj])]
        exact ih

theorem getNode?_putNode_self (s : List ThoughtNode) (n : ThoughtNode) :
    getNode? (putNode s n) n.id = some n := by
  rw [putNode, getNode?]
  by_cases h : s.any (fun m => m.id == n.id) = true
  · rw [if_pos h]
    exact find?_map_replace n s h
  · rw [if_neg h]
    rw [List.find?_append]
    have hnone : s.find? (fun m => m.id == n.id) = none := by
      rw [List.find?_eq_none]
      intro x hx
      simp only [List.any_eq_true, not_exists] at h
      simp only [Bool.not_eq_true]
      by_contra hcon
      simp only [Bool.not_eq_false] at hcon
      exact h x ⟨hx, hcon⟩
    rw [hnone]
    simp

theorem getNode?_putNode_ne (s : List ThoughtNode) (n : ThoughtNode) (j : Nat)
    (hj : j ≠ n.id) : getNode? (putNode s n) j = getNode? s j := by
  rw [putNode, getNode?, getNode?]
  by_cases h : s.any (fun m => m.id == n.id) = true
  · rw [if_pos h]
    exact find?_map_replace_ne n j hj s
  · rw [if_neg h]
    rw [List.find?_append]
    have hsingle : ([n].find? fun m => m.id == j) = none := by
      simp [Ne.symm hj]
    rw [hsingle]
    simp

theorem getNode?_id_eq (s : List ThoughtNode) (i : Nat) (n : ThoughtNode)
    (h : getNode? s i = some n) : n ∈ s ∧ n.id = i := by
  rw [getNode?] at h
  refine ⟨List.mem_of_find?_eq_some h, ?_⟩
  have := List.find?_some h
  simpa using this

theorem store_two_puts (store : List ThoughtNode) (node parent : ThoughtNode)
    (pid nid : Nat)
    (hnid : node.id = nid)
    (hparent : getNode? store pid = some parent)
    (hne : nid ≠ pid)
    (hchild : node.children = []) :
    getNode? (putNode (putNode store node)
        { parent with children := parent.children ++ [nid] }) pid
      = some { parent with children := parent.children ++ [nid] }
    ∧ (∀ j, j ≠ pid → j ≠ nid →
        getNode? (putNode (putNode store node)
          { parent with children := parent.children ++ [nid] }) j = getNode? store j)
    ∧ ∃ nd, getNode? (putNode (putNode store node)
        { parent with children := parent.children ++ [nid] }) nid = some nd
        ∧ nd.children = [] := by
  subst hnid
  obtain ⟨hmem, hid⟩ := getNode?_id_eq store pid parent hparent
  subst hid
  refine ⟨?_, ?_, ?_⟩
  · exact getNode?_putNode_self (putNode store node)
      { parent with children := parent.children ++ [node.id] }
  · intro j hjp hjn
    have h1 := getNode?_putNode_ne (putNode store node)
      { parent with children := parent.children ++ [node.id] } j hjp
    rw [h1]
    exact getNode?_putNode_ne store node j hjn
  · refine ⟨node, ?_, hchild⟩
    have h2 := getNode?_putNode_ne (putNode store node)
      { parent with children := parent.children ++ [node.id] } node.id hne
    rw [h2]
    exact getNode?_putNode_self store node

theorem processAStarStep_store (st : AStarState) :
    (processAStarStep st).store = st.store := by
  rw [processAStarStep]
  cases selectLowestF st.store st.openSet <;> rfl

theorem processAStarStep_nextId (st : AStarState) :
    (processAStarStep st).nextId = st.nextId := by
  rw [processAStarStep]
  cases selectLowestF st.store st.openSet <;> rfl

/-- C1: on a processThought request whose parentId names a node present in
the store, both the CSP and the A* strategy append exactly one entry, the
fresh node id of the response, to the children of that parent, touch the
children of no other stored node, and create the new node itself with an
empty children list.  The uuid freshness of the source is modelled by the
counter plus the hypothesis that no stored node carries the fresh id; the
scoring function of the shared base class is an arbitrary parameter. -/
theorem processThought_appendsChild
    (evaluateThought : ThoughtNode → Option ThoughtNode → ℚ)
    (store : List ThoughtNode) (nextId : Nat) (request : ReasoningRequest)
    (pid : Nat) (parent : ThoughtNode)
    (openS closedS : List (Nat × ThoughtNode))
    (domains : List (String × List ℚ))
    (constraintsIdx : List (String × List ConstraintFn))
    (assignments : List (String × ℚ))
    (hpid : request.parentId = some pid)
    (hparent : getNode? store pid = some parent)
    (hfresh : ∀ n ∈ store, n.id ≠ nextId) :
    appendsChildOnce store
      (cspProcessThought evaluateThought
        ⟨store, nextId, domains, constraintsIdx, assignments⟩ request).1.store
      pid nextId parent
      (cspProcessThought evaluateThought
        ⟨store, nextId, domains, constraintsIdx, assignments⟩ request).2.nodeId
    ∧ appendsChildOnce store
      (aStarProcessThought evaluateThought ⟨store, nextId, openS, closedS⟩ request).1.store
      pid nextId parent
      (aStarProcessThought evaluateThought ⟨store, nextId, openS, closedS⟩ request).2.nodeId := by
  have hbind : request.parentId.bind (getNode? store) = some parent := by
    rw [hpid]
    simpa using hparent
  have hnep : nextId ≠ pid := by
    obtain ⟨hmem, hid⟩ := getNode?_id_eq store pid parent hparent
    intro hcon
    exact hfresh parent hmem (by rw [hid, hcon])
  constructor
  · refine ⟨rfl, ?_, ?_, ?_⟩
    · simp only [cspProcessThought, hbind]
      refine (store_two_puts store _ parent pid nextId rfl hparent hnep ?_).1
      · rfl
    · simp only [cspProcessThought, hbind]
      refine (store_two_puts store _ parent pid nextId rfl hparent hnep ?_).2.1
      · rfl
    · simp only [cspProcessThought, hbind]
      refine (store_two_puts store _ parent pid nextId rfl hparent hnep ?_).2.2
      · rfl
  · refine ⟨rfl, ?_, ?_, ?_⟩
    · simp only [aStarProcessThought, hbind, processAStarStep_store]
      refine (store_two_puts store _ parent pid nextId rfl hparent hnep ?_).1
      · rfl
    · simp only [aStarProcessThought, hbind, processAStarStep_store]
      refine (store_two_puts store _ parent pid nextId rfl hparent hnep ?_).2.1
      · rfl
    · simp only [aStarProcessThought, hbind, processAStarStep_store]
      refine (store_two_puts store _ parent pid nextId rfl hparent hnep ?_).2.2
      · rfl

/-- Witness for processThought_appendsChild at a one-node store. -/
theorem processThought_appendsChild_witness :
    childRequest.parentId = some 0
    ∧ getNode? [sampleRoot] 0 = some sampleRoot
    ∧ (∀ n ∈ [sampleRoot], n.id ≠ 1)
    ∧ appendsChildOnce [sampleRoot]
        (cspProcessThought (fun _ _ => 0) ⟨[sampleRoot], 1, [], [], []⟩ childRequest).1.store
        0 1 sampleRoot
        (cspProcessThought (fun _ _ => 0) ⟨[sampleRoot], 1, [], [], []⟩ childRequest).2.nodeId
    ∧ appendsChildOnce [sampleRoot]
        (aStarProcessThought (fun _ _ => 0) ⟨[sampleRoot], 1, [], []⟩ childRequest).1.store
        0 1 sampleRoot
        (aStarProcessThought (fun _ _ => 0) ⟨[sampleRoot], 1, [], []⟩ childRequest).2.nodeId :=
  ⟨rfl, rfl, by decide,
    (processThought_appendsChild (fun _ _ => 0) [sampleRoot] 1 childRequest 0 sampleRoot
      [] [] [] [] [] rfl rfl (by decide)).1,
    (processThought_appendsChild (fun _ _ => 0) [sampleRoot] 1 childRequest 0 sampleRoot
      [] [] [] [] [] rfl rfl (by decide)).2⟩

theorem foldl_selStep_some (store : List ThoughtNode) :
    ∀ (l : List (Nat × ThoughtNode)) (q : ThoughtNode) (fq : ℚ),
      fq = fScore store q →
      ∃ r fr, l.foldl (selStep store) (some (q, fq)) = some (r, fr)
        ∧ fr = fScore store r
        ∧ (r = q ∨ ∃ p ∈ l, p.2 = r)
        ∧ fr ≤ fq
        ∧ ∀ p ∈ l, fr ≤ fScore store p.2 := by
  intro l
  induction l with
  | nil =>
    intro q fq hq
    exact ⟨q, fq, rfl, hq, Or.inl rfl, le_refl _, by simp⟩
  | cons h t ih =>
    intro q fq hq
    rw [List.foldl_cons]
    by_cases hc : gScore store h.2.id + h.2.heuristicValue.getD 0 < fq
    · have hstep : selStep store (some (q, fq)) h
          = some (h.2, gScore store h.2.id + h.2.heuristicValue.getD 0) := by
        rw [selStep]
        simp [hc]
      rw [hstep]
      obtain ⟨r, fr, hfold, hfr, hmem, hle, hall⟩ := ih h.2 _ rfl
      refine ⟨r, fr, hfold, hfr, ?_, le_trans hle (le_of_lt hc), ?_⟩
      · rcases hmem with heq | ⟨p, hp, hpr⟩
        · exact Or.inr ⟨h, List.mem_cons_self h t, heq.symm ▸ rfl⟩
        · exact Or.inr ⟨p, List.mem_cons_of_mem h hp, hpr⟩
      · intro p hp
        rcases List.mem_cons.mp hp with heq | hmem2
        · rw [heq]
          exact hle
        · exact hall p hmem2
    · have hstep : selStep store (some (q, fq)) h = some (q, fq) := by
        rw [selStep]
        simp [hc]
      rw [hstep]
      obtain ⟨r, fr, hfold, hfr, hmem, hle, hall⟩ := ih q fq hq
      refine ⟨r, fr, hfold, hfr, ?_, hle, ?_⟩
      · rcases hmem with heq | ⟨p, hp, hpr⟩
        · exact Or.inl heq
        · exact Or.inr ⟨p, List.mem_cons_of_mem h hp, hpr⟩
      · intro p hp
        rcases List.mem_cons.mp hp with heq | hmem2
        · rw [heq]
          exact le_trans hle (le_of_not_lt hc)
        · exact hall p hmem2

theorem selectLowestF_spec (store : List ThoughtNode)
    (l : List (Nat × ThoughtNode)) (hne : l ≠ []) :
    ∃ cur, selectLowestF store l = some cur
      ∧ (∃ p ∈ l, p.2 = cur)
      ∧ ∀ p ∈ l, fScore store cur ≤ fScore store p.2 := by
  cases l with
  | nil => exact absurd rfl hne
  | cons h t =>
    rw [selectLowestF, List.foldl_cons]
    have hstep : selStep store none h
        = some (h.2, gScore store h.2.id + h.2.heuristicValue.getD 0) := rfl
    rw [hstep]
    obtain ⟨r, fr, hfold, hfr, hmem, hle, hall⟩ :=
      foldl_selStep_some store t h.2 (gScore store h.2.id + h.2.heuristicValue.getD 0) rfl
    rw [hfold]
    refine ⟨r, rfl, ?_, ?_⟩
    · rcases hmem with heq | ⟨p, hp, hpr⟩
      · exact ⟨h, List.mem_cons_self h t, heq.symm ▸ rfl⟩
      · exact ⟨p, List.mem_cons_of_mem h hp, hpr⟩
    · intro p hp
      rcases List.mem_cons.mp hp with heq | hmem2
      · rw [heq, ← hfr]
        exact hle
      · rw [← hfr]
        exact hall p hmem2

theorem setAssoc_of_forall_ne {α : Type} (l : List (Nat × α)) (k : Nat) (v : α)
    (h : ∀ q ∈ l, q.1 ≠ k) : setAssoc l k v = l ++ [(k, v)] := by
  rw [setAssoc, if_neg]
  simp only [List.any_eq_true, not_exists]
  intro x
  intro hx
  exact absurd (by simpa using hx.2) (h x hx.1)

/-- C4: on a nonempty open set the A* step selects an open-set member of
minimum f, where f is the root-path score sum plus the stored heuristic,
removes exactly that entry from the open set and appends it to the closed
set, leaving the store and the id counter untouched: the single move is
the entire effect of the step, so a complete selected node receives no
further expansion work in the call. -/
theorem processAStarStep_spec (st : AStarState)
    (hne : st.openSet ≠ [])
    (hkey : ∀ p ∈ st.openSet, p.1 = p.2.id)
    (hdisj : ∀ p ∈ st.openSet, ∀ q ∈ st.closedSet, p.1 ≠ q.1) :
    ∃ cur, selectLowestF st.store st.openSet = some cur
      ∧ (∃ p ∈ st.openSet, p.2 = cur)
      ∧ (∀ p ∈ st.openSet, fScore st.store cur ≤ fScore st.store p.2)
      ∧ (processAStarStep st).openSet = st.openSet.eraseP (fun q => q.1 == cur.id)
      ∧ (processAStarStep st).closedSet = st.closedSet ++ [(cur.id, cur)]
      ∧ (processAStarStep st).store = st.store
      ∧ (processAStarStep st).nextId = st.nextId := by
  obtain ⟨cur, hsel, hmem, hmin⟩ := selectLowestF_spec st.store st.openSet hne
  have hnotclosed : ∀ q ∈ st.closedSet, q.1 ≠ cur.id := by
    obtain ⟨p, hp, hpc⟩ := hmem
    intro q hq hcon
    exact hdisj p hp q hq (by rw [hkey p hp, hpc, hcon])
  refine ⟨cur, hsel, hmem, hmin, ?_, ?_,
    processAStarStep_store st, processAStarStep_nextId st⟩
  · simp only [processAStarStep, hsel]
  · simp only [processAStarStep, hsel]
    exact setAssoc_of_forall_ne st.closedSet cur.id cur hnotclosed

/-- Witness for processAStarStep_spec at a singleton open set. -/
theorem processAStarStep_spec_witness :
    ([(0, sampleRoot)] : List (Nat × ThoughtNode)) ≠ []
    ∧ ∃ cur,
        selectLowestF [sampleRoot] [(0, sampleRoot)] = some cur
        ∧ (∃ p ∈ ([(0, sampleRoot)] : List (Nat × ThoughtNode)), p.2 = cur)
        ∧ (∀ p ∈ ([(0, sampleRoot)] : List (Nat × ThoughtNode)),
            fScore [sampleRoot] cur ≤ fScore [sampleRoot] p.2)
        ∧ (processAStarStep ⟨[sampleRoot], 1, [(0, sampleRoot)], []⟩).openSet
            = ([(0, sampleRoot)] : List (Nat × ThoughtNode)).eraseP (fun q => q.1 == cur.id)
        ∧ (processAStarStep ⟨[sampleRoot], 1, [(0, sampleRoot)], []⟩).closedSet
            = [] ++ [(cur.id, cur)]
        ∧ (processAStarStep ⟨[sampleRoot], 1, [(0, sampleRoot)], []⟩).store = [sampleRoot]
        ∧ (processAStarStep ⟨[sampleRoot], 1, [(0, sampleRoot)], []⟩).nextId = 1 :=
  ⟨by decide, processAStarStep_spec ⟨[sampleRoot], 1, [(0, sampleRoot)], []⟩
    (by decide) (by decide) (by decide)⟩

theorem aStarMakeNode_id (evaluateThought : ThoughtNode → Option ThoughtNode → ℚ)
    (nodeId : Nat) (parentNode : Option ThoughtNode) (request : ReasoningRequest) :
    (aStarMakeNode evaluateThought nodeId parentNode request).id = nodeId := rfl

/-- C10: the A* expansion step runs before the response is built, so with
an empty open set beforehand the node created by the request itself is the
one moved into the closed set within the same call: the response reports
openSetSize 0, closedSetSize 1, and bestScore none, the JS -Infinity that
Math.max yields over the now-empty open set. -/
theorem aStarFirstRequest_spec
    (evaluateThought : ThoughtNode → Option ThoughtNode → ℚ)
    (st : AStarState) (request : ReasoningRequest)
    (hopen : st.openSet = []) (hclosed : st.closedSet = []) :
    (aStarProcessThought evaluateThought st request).2.openSetSize = 0
    ∧ (aStarProcessThought evaluateThought st request).2.closedSetSize = 1
    ∧ (aStarProcessThought evaluateThought st request).2.bestScore = none
    ∧ ∃ nd, nd.id = st.nextId
        ∧ (aStarProcessThought evaluateThought st request).1.closedSet
            = [(st.nextId, nd)] := by
  simp only [aStarProcessThought, hopen, hclosed]
  simp only [setAssoc, List.any_nil, Bool.false_eq_true, if_false, List.nil_append,
    processAStarStep, selectLowestF, List.foldl_cons, List.foldl_nil, selStep,
    Option.map_some, Option.map_some', List.eraseP_cons, aStarMakeNode_id,
    beq_self_eq_true, if_true, List.length_nil, List.length_cons, jsMax,
    List.map_nil, Bool.cond_true]
  exact ⟨trivial, trivial, trivial, _, rfl, rfl⟩

/-- Witness for aStarFirstRequest_spec at a fresh strategy. -/
theorem aStarFirstRequest_spec_witness :
    initAStarState.openSet = [] ∧ initAStarState.closedSet = []
    ∧ (aStarProcessThought (fun _ _ => 0) initAStarState sampleRequest).2.openSetSize = 0
    ∧ (aStarProcessThought (fun _ _ => 0) initAStarState sampleRequest).2.closedSetSize = 1
    ∧ (aStarProcessThought (fun _ _ => 0) initAStarState sampleRequest).2.bestScore = none :=
  ⟨rfl, rfl,
    (aStarFirstRequest_spec (fun _ _ => 0) initAStarState sampleRequest rfl rfl).1,
    (aStarFirstRequest_spec (fun _ _ => 0) initAStarState sampleRequest rfl rfl).2.1,
    (aStarFirstRequest_spec (fun _ _ => 0) initAStarState sampleRequest rfl rfl).2.2.1⟩


theorem mem_eraseP_of_pred_false {α : Type} (p : α → Bool) (l : List α) (x : α)
    (hx : x ∈ l) (hpx : p x = false) : x ∈ l.eraseP p := by
  induction l with
  | nil => simp at hx
  | cons h t ih =>
    by_cases hh : p h = true
    · rw [List.eraseP_cons_of_pos hh]
      rcases List.mem_cons.mp hx with heq | hmem
      · subst heq
        rw [hpx] at hh
        exact absurd hh (by simp)
      · exact hmem
    · rw [List.eraseP_cons_of_neg (by simpa using hh)]
      rcases List.mem_cons.mp hx with heq | hmem
      · exact heq ▸ List.mem_cons_self h _
      · exact List.mem_cons_of_mem h (ih hmem)

theorem key_ne_of_mem_eraseP {α : Type} (l : List (Nat × α)) (k : Nat)
    (hnd : (l.map Prod.fst).Nodup) :
    ∀ x ∈ l.eraseP (fun q => q.1 == k), x.1 ≠ k := by
  induction l with
  | nil => simp
  | cons h t ih =>
    simp only [List.map_cons, List.nodup_cons] at hnd
    by_cases hh : (h.1 == k) = true
    · simp only [List.eraseP_cons, hh, Bool.cond_true]
      intro x hx hcon
      have hhk : h.1 = k := by simpa using hh
      refine hnd.1 ?_
      rw [hhk, ← hcon]
      exact List.mem_map_of_mem Prod.fst hx
    · have hh2 : (h.1 == k) = false := by simpa using hh
      simp only [List.eraseP_cons, hh2, Bool.cond_false]
      intro x hx
      rcases List.mem_cons.mp hx with heq | hmem
      · subst heq
        simpa using hh
      · exact ih hnd.2 x hmem

theorem processAStarStep_inv (st : AStarState) (hinv : aStarInv st) :
    aStarInv (processAStarStep st) := by
  obtain ⟨hob, hcb, hok, hck, hond, hcnd, hdisj, hcov⟩ := hinv
  cases hempty : st.openSet with
  | nil =>
    have hsel : selectLowestF st.store st.openSet = none := by
      rw [hempty]
      rfl
    rw [processAStarStep, hsel]
    exact ⟨hob, hcb, hok, hck, hond, hcnd, hdisj, hcov⟩
  | cons hd tl =>
    obtain ⟨cur, hsel, hmem, hmin, hopen2, hclosed2, hstore2, hnext2⟩ :=
      processAStarStep_spec st (by rw [hempty]; exact List.cons_ne_nil hd tl) hok hdisj
    obtain ⟨p0, hp0, hp0c⟩ := hmem
    have hcurid : cur.id = p0.1 := by rw [hok p0 hp0, hp0c]
    have hcurlt : cur.id < st.nextId := hcurid ▸ hob p0 hp0
    have hcurclosed : ∀ q ∈ st.closedSet, q.1 ≠ cur.id := by
      intro q hq hcon
      exact hdisj p0 hp0 q hq (by rw [hcurid] at hcon; rw [hcon])
    have hsubopen : ∀ x ∈ (processAStarStep st).openSet, x ∈ st.openSet := by
      intro x hx
      rw [hopen2] at hx
      exact (List.eraseP_sublist st.openSet).subset hx
    have hkeyopen2 : ∀ x ∈ (processAStarStep st).openSet, x.1 ≠ cur.id := by
      intro x hx
      rw [hopen2] at hx
      exact key_ne_of_mem_eraseP st.openSet cur.id hond x hx
    refine ⟨?_, ?_, ?_, ?_, ?_, ?_, ?_, ?_⟩
    · intro p hp
      rw [hnext2]
      exact hob p (hsubopen p hp)
    · intro q hq
      rw [hclosed2] at hq
      rw [hnext2]
      rcases List.mem_append.mp hq with hql | hqr
      · exact hcb q hql
      · have : q = (cur.id, cur) := by simpa using hqr
        rw [this]
        exact hcurlt
    · intro p hp
      exact hok p (hsubopen p hp)
    · intro q hq
      rw [hclosed2] at hq
      rcases List.mem_append.mp hq with hql | hqr
      · exact hck q hql
      · have : q = (cur.id, cur) := by simpa using hqr
        rw [this]
    · rw [hopen2]
      exact hond.sublist ((List.eraseP_sublist st.openSet).map Prod.fst)
    · rw [hclosed2]
      rw [List.map_append]
      rw [List.nodup_append]
      refine ⟨hcnd, by simp, ?_⟩
      intro a ha hb
      have : a = cur.id := by simpa using hb
      subst this
      obtain ⟨q, hq, hqa⟩ := List.mem_map.mp ha
      exact hcurclosed q hq hqa
    · intro p hp q hq
      rw [hclosed2] at hq
      rcases List.mem_append.mp hq with hql | hqr
      · exact hdisj p (hsubopen p hp) q hql
      · have : q = (cur.id, cur) := by simpa using hqr
        rw [this]
        exact hkeyopen2 p hp
    · intro i hi
      rw [hnext2] at hi
      rcases hcov i hi with ⟨p, hp, hpi⟩ | ⟨q, hq, hqi⟩
      · by_cases hic : i = cur.id
        · refine Or.inr ⟨(cur.id, cur), ?_, hic.symm⟩
          rw [hclosed2]
          exact List.mem_append_right _ (List.mem_singleton.mpr rfl)
        · refine Or.inl ⟨p, ?_, hpi⟩
          rw [hopen2]
          refine mem_eraseP_of_pred_false _ _ p hp ?_
          simp only [beq_eq_false_iff_ne]
          rw [hpi]
          exact hic
      · refine Or.inr ⟨q, ?_, hqi⟩
        rw [hclosed2]
        exact List.mem_append_left _ hq

theorem aStarInsert_inv (store2 : List ThoughtNode) (st : AStarState) (node : ThoughtNode)
    (hnodeid : node.id = st.nextId)
    (hinv : aStarInv st) :
    aStarInv (⟨store2, st.nextId + 1,
      setAssoc st.openSet st.nextId node, st.closedSet⟩ : AStarState) := by
  obtain ⟨hob, hcb, hok, hck, hond, hcnd, hdisj, hcov⟩ := hinv
  have happ : setAssoc st.openSet st.nextId node
      = st.openSet ++ [(st.nextId, node)] :=
    setAssoc_of_forall_ne st.openSet st.nextId node
      (fun p hp => Nat.ne_of_lt (hob p hp))
  rw [happ]
  refine ⟨?_, ?_, ?_, ?_, ?_, ?_, ?_, ?_⟩
  · intro p hp
    rcases List.mem_append.mp hp with hpl | hpr
    · exact Nat.lt_succ_of_lt (hob p hpl)
    · have : p = (st.nextId, node) := by simpa using hpr
      rw [this]
      exact Nat.lt_succ_self _
  · intro q hq
    exact Nat.lt_succ_of_lt (hcb q hq)
  · intro p hp
    rcases List.mem_append.mp hp with hpl | hpr
    · exact hok p hpl
    · have : p = (st.nextId, node) := by simpa using hpr
      rw [this, hnodeid]
  · exact hck
  · rw [List.map_append, List.nodup_append]
    refine ⟨hond, by simp, ?_⟩
    intro a ha hb
    have : a = st.nextId := by simpa using hb
    subst this
    obtain ⟨p, hp, hpa⟩ := List.mem_map.mp ha
    exact Nat.ne_of_lt (hob p hp) hpa
  · exact hcnd
  · intro p hp q hq
    rcases List.mem_append.mp hp with hpl | hpr
    · exact hdisj p hpl q hq
    · have : p = (st.nextId, node) := by simpa using hpr
      rw [this]
      exact fun hcon => Nat.ne_of_lt (hcb q hq) hcon.symm
  · intro i hi
    rcases Nat.lt_succ_iff_lt_or_eq.mp hi with hlt | heqi
    · rcases hcov i hlt with ⟨p, hp, hpi⟩ | ⟨q, hq, hqi⟩
      · exact Or.inl ⟨p, List.mem_append_left _ hp, hpi⟩
      · exact Or.inr ⟨q, hq, hqi⟩
    · subst heqi
      exact Or.inl ⟨(st.nextId, node),
        List.mem_append_right _ (List.mem_singleton.mpr rfl), rfl⟩

theorem aStarProcessThought_inv
    (evaluateThought : ThoughtNode → Option ThoughtNode → ℚ)
    (st : AStarState) (request : ReasoningRequest) (hinv : aStarInv st) :
    aStarInv (aStarProcessThought evaluateThought st request).1 :=
  processAStarStep_inv _
    (aStarInsert_inv _ st
      (aStarMakeNode evaluateThought st.nextId
        (request.parentId.bind (getNode? st.store)) request)
      rfl hinv)

theorem aStarProcessMany_inv
    (evaluateThought : ThoughtNode → Option ThoughtNode → ℚ)
    (requests : List ReasoningRequest) :
    ∀ st : AStarState, aStarInv st →
      aStarInv (aStarProcessMany evaluateThought st requests) := by
  induction requests with
  | nil =>
    intro st hinv
    exact hinv
  | cons r rs ih =>
    intro st hinv
    exact ih _ (aStarProcessThought_inv evaluateThought st r hinv)

theorem aStarInv_init : aStarInv initAStarState := by
  refine ⟨?_, ?_, ?_, ?_, ?_, ?_, ?_, ?_⟩ <;> simp [initAStarState]

/-- C5: after any sequence of processThought calls on a fresh A* strategy,
the open and closed sets are key-disjoint and the ids created by the
strategy (the counter values consumed so far) are exactly the keys present
in one of the two sets. -/
theorem aStar_openClosedPartition
    (evaluateThought : ThoughtNode → Option ThoughtNode → ℚ)
    (requests : List ReasoningRequest) :
    openClosedPartition (aStarProcessMany evaluateThought initAStarState requests) := by
  obtain ⟨hob, hcb, _, _, _, _, hdisj, hcov⟩ :=
    aStarProcessMany_inv evaluateThought requests initAStarState aStarInv_init
  refine ⟨hdisj, ?_⟩
  intro i
  constructor
  · exact hcov i
  · rintro (⟨p, hp, hpi⟩ | ⟨q, hq, hqi⟩)
    · exact hpi ▸ hob p hp
    · exact hqi ▸ hcb q hq

/-- Witness for aStar_openClosedPartition at a concrete run. -/
theorem aStar_openClosedPartition_witness :
    openClosedPartition
      (aStarProcessMany (fun _ _ => 0) initAStarState [sampleRequest, sampleRequest]) :=
  aStar_openClosedPartition (fun _ _ => 0) [sampleRequest, sampleRequest]
end MCPReasoner
